import Mathlib
/-!
Verification of the block cache reference model
(`nakamoto-chain/src/block/cache/model.rs`).

The development shallowly embeds the `Cache` structure and its operations.
Machine integers are modelled as `Nat`/`Int`; the `HashMap` of headers is
modelled as an association list with replace-on-insert semantics; fallible
or aborting code returns `Option` (`none` models a panic or divergence).

The header hash (`bitcoin_hash`, from the external `bitcoin` crate) and the
per-header work value (`Branch::work`, declared outside the given sources)
are opaque deterministic functions of a header; the development is
parameterized over them as `H : Header → Hash` and `W : Header → Nat`.
-/

/-- Block hashes (identities): fixed-width digests, compared numerically. -/
abbrev Hash : Type := Nat

/-- Block header: the fields of `bitcoin::BlockHeader` (version,
`prev_blockhash`, merkle root, time, difficulty bits, nonce). -/
structure Header where
  version : Int
  prev : Hash
  merkleRoot : Nat
  time : Nat
  bits : Nat
  nonce : Nat
deriving DecidableEq, Repr

/-- The header store: `HashMap<BlockHash, BlockHeader>` modelled as an
association list (key-value pairs, replace-on-insert). -/
abbrev Store : Type := List (Hash × Header)

namespace Store

/-- `HashMap::get`: the value at the first matching key, if any. -/
def lookupS : Store → Hash → Option Header
  | [], _ => none
  | (k', v) :: t, k => if k' = k then some v else lookupS t k

/-- `HashMap::insert`: replace the binding at an existing key, else append. -/
def insertS : Store → Hash → Header → Store
  | [], k, v => [(k, v)]
  | (k', v') :: t, k, v => if k' = k then (k, v) :: t else (k', v') :: insertS t k v

/-- `HashMap::remove`: drop the binding(s) at the given key. -/
def removeS : Store → Hash → Store
  | [], _ => []
  | (k', v) :: t, k => if k' = k then removeS t k else (k', v) :: removeS t k

/-- `HashMap::keys`: the key enumeration of the store. -/
def keysOf (s : Store) : List Hash := s.map Prod.fst

end Store

export Store (lookupS insertS removeS keysOf)

/-- Nonempty sequence, mirroring the `nonempty` crate's `NonEmpty` used for
the active chain: a head element plus a tail list. -/
structure NEL (α : Type) where
  head : α
  tail : List α
deriving DecidableEq, Repr

namespace NEL

/-- The underlying list (head followed by tail). -/
def toList (c : NEL α) : List α := c.head :: c.tail

/-- `NonEmpty::last`: the final element. -/
def last (c : NEL α) : α := c.toList.getLast (by simp [toList])

/-- `NonEmpty::len`: the length (at least 1). -/
def len (c : NEL α) : Nat := c.tail.length + 1

end NEL

/-!
## The backward branch walk

`Cache::branch` runs `while let Some(header) = self.headers.get(&tip)`,
following `prev_blockhash` links and accumulating headers front-first.
The loop is unbounded in the source; it is embedded fuel-indexed:
`branchLoop fuel` returns `none` when the loop has not exited within
`fuel` iterations (so `∀ fuel, … = none` models divergence), and
`some ws` when the loop exited with accumulated deque `ws` (root first).
-/
/-- The walk loop body, iterated at most `fuel` times. `acc` is the deque
(front of the deque = head of the list). -/
def branchLoop (s : Store) : Nat → Hash → List Header → Option (List Header)
  | 0, _, _ => none
  | fuel + 1, tip, acc =>
    match lookupS s tip with
    | none => some acc
    | some h => branchLoop s fuel h.prev (h :: acc)

/-- The walk terminates from `tip` when some fuel suffices for the loop to
exit. -/
def branchTerminates (s : Store) (tip : Hash) : Prop :=
  ∃ fuel, (branchLoop s fuel tip []).isSome

/-- The pairs `(key, header)` fetched by the walk, in fetch order
(tip side first). `none` models running out of fuel. -/
def visitedPairs (s : Store) : Nat → Hash → Option (List (Hash × Header))
  | 0, _ => none
  | fuel + 1, tip =>
    match lookupS s tip with
    | none => some []
    | some hd => (visitedPairs s fuel hd.prev).map (fun ps => (tip, hd) :: ps)

/-!
## The shape of a completed walk

`WalkOk s tip ws` describes the deque contents when the loop exits:
either nothing was fetched (`tip` itself absent), or the deque runs from
the deepest fetched header (`root`, whose own predecessor is absent from
the store) forward to the header stored at `tip`, linked by store hits.
-/
/-- Adjacent elements of the deque are linked through the store: each
header was found at its successor's `prev` identity. -/
def walkLinked (s : Store) : List Header → Bool
  | [] => true
  | [_] => true
  | a :: b :: t => if lookupS s b.prev = some a then walkLinked s (b :: t) else false

/-- Specification of a completed walk from `tip` with deque `ws`. -/
def WalkOk (s : Store) (tip : Hash) (ws : List Header) : Prop :=
  match ws with
  | [] => lookupS s tip = none
  | root :: _ =>
      lookupS s root.prev = none ∧ walkLinked s ws = true ∧
        ws.getLast? = lookupS s tip

/-!
## Branch reconstruction and fork choice
-/
/-- `Cache::branch`: run the backward walk, then pop the front of the deque
and accept the branch only when that root hashes to the genesis identity.
The outer `Option` is the fuel layer (`none` = the loop has not exited
within `fuel` iterations); the inner `Option` is the function's own result. -/
def branchCore (H : Header → Hash) (s : Store) (genesis : Hash)
    (fuel : Nat) (tip : Hash) : Option (Option (NEL Header)) :=
  (branchLoop s fuel tip []).map fun ws =>
    match ws with
    | [] => none
    | root :: rest => if H root = genesis then some ⟨root, rest⟩ else none

/-- The post-walk computation of `Cache::branch`: pop the deque's front as
the root and accept the branch only when the root hashes to genesis. -/
def wsBranch (H : Header → Hash) (g : Hash) : List Header → Option (NEL Header)
  | [] => none
  | root :: rest => if H root = g then some ⟨root, rest⟩ else none

/-- Cumulative work of a branch: `Branch(&a.tail).work()`. Modelled from the
spec: `crate::block::tree::Branch::work` is declared outside the given
sources; per the spec it transforms each header's difficulty target into a
work value and sums it over the branch's non-genesis headers, in exact
integer arithmetic. The per-header work value is the opaque parameter `W`. -/
def tailWork (W : Header → Nat) (b : NEL Header) : Nat :=
  (b.tail.map W).sum

/-- `Ord::cmp` on numeric identities. -/
def cmpNat (a b : Nat) : Ordering :=
  if a < b then .lt else if a = b then .eq else .gt

/-- The comparator passed to `max_by` in `Cache::longest_chain`: compare by
cumulative work, and on exactly equal work compare the tip identities in
reverse (so that the numerically smaller tip wins the maximum). -/
def cmpBranch (H : Header → Hash) (W : Header → Nat) (a b : NEL Header) : Ordering :=
  if tailWork W a = tailWork W b then
    cmpNat (H (NEL.last b)) (H (NEL.last a))
  else
    cmpNat (tailWork W a) (tailWork W b)

/-- `Iterator::max_by` over the collected branches: fold keeping the later
element whenever the comparator does not answer `Less` (so among equal
maxima the last one wins); `none` on an empty collection (the source then
panics via `unwrap`). -/
def selMax (H : Header → Hash) (W : Header → Nat) :
    List (NEL Header) → Option (NEL Header)
  | [] => none
  | x :: xs =>
      some (xs.foldl (fun acc y => if cmpBranch H W y acc = .lt then acc else y) x)

/-- The branch collection loop of `Cache::longest_chain`: reconstruct a
branch for every store key, keeping the successes. `none` when some
reconstruction diverges (the source would then never return). -/
def collectBranches (H : Header → Hash) (s : Store) (genesis : Hash)
    (fuel : Nat) : List Hash → Option (List (NEL Header))
  | [] => some []
  | k :: ks =>
    match branchCore H s genesis fuel k with
    | none => none
    | some none => collectBranches H s genesis fuel ks
    | some (some b) => (collectBranches H s genesis fuel ks).map (fun bs => b :: bs)

/-- `Cache::longest_chain` over an explicit key enumeration `ks` (the
`HashMap` iteration order is arbitrary): collect all reconstructible
branches, then take the maximum under the work/tie-break comparator.
`none` models divergence of some walk or the `unwrap` panic when no branch
reconstructs to genesis. -/
def longestChainOver (H : Header → Hash) (W : Header → Nat) (s : Store)
    (genesis : Hash) (fuel : Nat) (ks : List Hash) : Option (NEL Header) :=
  (collectBranches H s genesis fuel ks).bind (selMax H W)

/-- What the fold selects: a member that beats every member, either by
strictly greater work or by equal work and a tip identity no larger. -/
def SelSpec (H : Header → Hash) (W : Header → Nat)
    (l : List (NEL Header)) (r : NEL Header) : Prop :=
  r ∈ l ∧ ∀ x ∈ l,
    tailWork W x < tailWork W r ∨
      (tailWork W x = tailWork W r ∧ H (NEL.last r) ≤ H (NEL.last x))

/-- Every key consistency: each store binding's key is the hash of its
header (true of every store the model ever builds, since all insertions
use `header.bitcoin_hash()` as the key). -/
def WellKeyedP (H : Header → Hash) (s : Store) : Prop :=
  ∀ p ∈ s, H p.2 = p.1

instance (H : Header → Hash) (s : Store) : Decidable (WellKeyedP H s) :=
  inferInstanceAs (Decidable (∀ p ∈ s, H p.2 = p.1))

/-!
## The cache and its operations
-/
/-- Modelled from the spec: the typed error vocabulary of the block tree
(`Error` is declared outside the given sources; the spec names the kinds
`InvalidHeight` — rollback beyond the chain height — and `EmptyChain` —
bulk construction from zero headers). -/
inductive ChainError where
  | invalidHeight
  | emptyChain
deriving DecidableEq, Repr

/-- Modelled from the spec: the opaque consensus context
(`AdjustedTime<net::SocketAddr>`, declared outside the given sources) that
`import_blocks` accepts but never uses. -/
abbrev Context : Type := Unit

/-- The `Cache` state: header store, active chain, cached tip identity and
the genesis identity fixed at construction. -/
structure Cache where
  headers : Store
  chain : NEL Header
  tip : Hash
  genesis : Hash
deriving DecidableEq, Repr

/-- Insert a batch of headers, each under its own hash, left to right. -/
def insertAll (H : Header → Hash) (s : Store) (l : List Header) : Store :=
  l.foldl (fun s h => insertS s (H h) h) s

namespace Cache

/-- `Cache::new`: start from a single genesis header. -/
def new (H : Header → Hash) (genesis : Header) : Cache :=
  ⟨insertS [] (H genesis) genesis, ⟨genesis, []⟩, H genesis, H genesis⟩

/-- `Cache::from`: bulk construction from an already-ordered chain. The
empty input makes `NonEmpty::from_vec(..).unwrap()` panic, modelled as
`none`; the signature (like the source's `-> Self`) has no error channel. -/
def fromChain (H : Header → Hash) : List Header → Option Cache
  | [] => none
  | g :: t =>
      some ⟨insertAll H [] (g :: t), ⟨g, t⟩,
        H (NEL.last ⟨g, t⟩), H g⟩

/-- `Cache::rollback`: drain `chain.tail[height..]`, removing each drained
header's hash from the store. `Vec::drain` panics (modelled `none`) when
`height` exceeds the tail length (= the chain height); otherwise the
function returns `Ok(())`. The cached `tip` field is not touched. -/
def rollback (H : Header → Hash) (c : Cache) (height : Nat) :
    Option (Except ChainError Cache) :=
  if height ≤ c.chain.tail.length then
    some (Except.ok
      ⟨(c.chain.tail.drop height).foldl (fun s b => removeS s (H b)) c.headers,
        ⟨c.chain.head, c.chain.tail.take height⟩, c.tip, c.genesis⟩)
  else
    none

/-- `Cache::branch` at the canonical fuel (one more than the store size,
which suffices exactly when the source's unbounded walk terminates). -/
def branch (H : Header → Hash) (c : Cache) (tip : Hash) :
    Option (Option (NEL Header)) :=
  branchCore H c.headers c.genesis (c.headers.length + 1) tip

/-- `Cache::longest_chain` over the store's key enumeration. -/
def longestChain (H : Header → Hash) (W : Header → Nat) (c : Cache) :
    Option (NEL Header) :=
  longestChainOver H W c.headers c.genesis (c.headers.length + 1)
    (keysOf c.headers)

/-- `Cache::import_blocks`: insert every supplied header verbatim, then
recompute the active chain and cached tip, returning the new tip identity
and height. The outer `Option` models the panic (`unwrap` on an empty
branch collection) or divergence inside `longest_chain`; the `Except` is
the function's `Result`, whose error branch is never constructed. -/
def importBlocks (H : Header → Hash) (W : Header → Nat) (_ctx : Context)
    (c : Cache) (hs : List Header) :
    Option (Except ChainError (Cache × Hash × Nat)) :=
  let s' := insertAll H c.headers hs
  match longestChainOver H W s' c.genesis (s'.length + 1) (keysOf s') with
  | none => none
  | some ch =>
      some (Except.ok
        (⟨s', ch, H (NEL.last ch), c.genesis⟩, H (NEL.last ch), ch.tail.length))

/-- The enumerated scan inside `Cache::get_block`: first index (counting
from `i`) whose header hashes to the target. -/
def findHeader (H : Header → Hash) (hash : Hash) :
    Nat → List Header → Option (Nat × Header)
  | _, [] => none
  | i, h :: t => if H h = hash then some (i, h) else findHeader H hash (i + 1) t

/-- `Cache::get_block`: linear scan of the active chain (never the store),
returning the zero-based height and header of the first hash match. -/
def getBlock (H : Header → Hash) (c : Cache) (hash : Hash) :
    Option (Nat × Header) :=
  findHeader H hash 0 c.chain.toList

/-- `Cache::height`: chain length minus one. -/
def height (c : Cache) : Nat := c.chain.tail.length

end Cache

/-- The cache states reachable from construction by import operations
only (the reachability the work-maximality invariant is stated over). -/
inductive Reachable (H : Header → Hash) (W : Header → Nat) : Cache → Prop where
  | new : ∀ g, Reachable H W (Cache.new H g)
  | load : ∀ l c, Cache.fromChain H l = some c → Reachable H W c
  | imp : ∀ c ctx hs c' t ht, Reachable H W c →
      Cache.importBlocks H W ctx c hs = some (Except.ok (c', t, ht)) →
      Reachable H W c'

instance {ε α : Type} [DecidableEq ε] [DecidableEq α] : DecidableEq (Except ε α) := fun x y =>
  match x, y with
  | .ok a, .ok b =>
      if h : a = b then isTrue (by rw [h]) else isFalse (by intro hc; cases hc; exact h rfl)
  | .error a, .error b =>
      if h : a = b then isTrue (by rw [h]) else isFalse (by intro hc; cases hc; exact h rfl)
  | .ok _, .error _ => isFalse (by intro hc; cases hc)
  | .error _, .ok _ => isFalse (by intro hc; cases hc)

/-!
## Concrete fixtures for witnesses and counterexamples

The hash parameter is instantiated by the nonce projection (headers below
are chosen with pairwise distinct nonces so this is injective on them),
and the work parameter by the constant 1.
-/
/-- Hash instantiation for concrete runs: a header's nonce. -/
def hashNonce : Header → Hash := fun h => h.nonce

/-- Work instantiation for concrete runs: every header weighs 1. -/
def workOne : Header → Nat := fun _ => 1

/-- Genesis fixture: identity 1, predecessor 0 (absent everywhere). -/
def gHdr : Header := ⟨0, 0, 0, 0, 0, 1⟩

/-- A child of `gHdr` with identity 10. -/
def aHdr : Header := ⟨0, 1, 0, 0, 0, 10⟩

/-- A competing child of `gHdr` with identity 7. -/
def bHdr : Header := ⟨0, 1, 0, 0, 0, 7⟩

/-- Cache holding the two-header chain `gHdr, aHdr`
(as built by `Cache::from`). -/
def cacheGA : Cache := ⟨[(1, gHdr), (10, aHdr)], ⟨gHdr, [aHdr]⟩, 10, 1⟩

/-- The state `Cache::rollback(0)` leaves `cacheGA` in: the chain and store
are truncated but the cached tip still reads 10. -/
def cacheGA0 : Cache := ⟨[(1, gHdr)], ⟨gHdr, []⟩, 10, 1⟩

/-- A store holding genesis and two competing children of equal work. -/
def storeFork : Store := [(1, gHdr), (10, aHdr), (7, bHdr)]

/-- A header whose predecessor identity is its own hash (under
`hashNonce`): a pathological cyclic link. -/
def loopHdr : Header := ⟨0, 5, 0, 0, 0, 5⟩

/-- A store containing only the cyclic header. -/
def cycStore : Store := [(5, loopHdr)]

namespace Store

theorem lookupS_mem {s : Store} {k : Hash} {v : Header}
    (h : lookupS s k = some v) : (k, v) ∈ s := by
  induction s with
  | nil => simp [lookupS] at h
  | cons p t ih =>
    obtain ⟨k', v'⟩ := p
    by_cases hk : k' = k
    · subst hk
      have h' : some v' = some v := by simpa [lookupS] using h
      cases h'
      exact List.mem_cons_self _ _
    · simp only [lookupS, if_neg hk] at h
      exact List.mem_cons_of_mem _ (ih h)

theorem lookupS_mem_keys {s : Store} {k : Hash} {v : Header}
    (h : lookupS s k = some v) : k ∈ keysOf s :=
  List.mem_map.mpr ⟨(k, v), lookupS_mem h, rfl⟩

theorem lookupS_removeS (s : Store) (k₀ k : Hash) :
    lookupS (removeS s k₀) k = if k = k₀ then none else lookupS s k := by
  induction s with
  | nil => simp [removeS, lookupS, ite_self]
  | cons p t ih =>
    obtain ⟨k', v'⟩ := p
    by_cases h1 : k' = k₀
    · subst h1
      rw [removeS, if_pos rfl, ih]
      by_cases h2 : k = k'
      · simp [h2]
      · simp [h2, lookupS, Ne.symm h2]
    · rw [removeS, if_neg h1]
      by_cases h2 : k' = k
      · subst h2
        simp [lookupS, fun hh : k' = k₀ => h1 hh]
      · simp only [lookupS, if_neg h2]
        exact ih

theorem lookupS_insertS (s : Store) (k₀ k : Hash) (v : Header) :
    lookupS (insertS s k₀ v) k = if k = k₀ then some v else lookupS s k := by
  induction s with
  | nil =>
    by_cases h : k = k₀
    · simp [insertS, lookupS, h]
    · simp [insertS, lookupS, h, Ne.symm h]
  | cons p t ih =>
    obtain ⟨k', v'⟩ := p
    by_cases h1 : k' = k₀
    · subst h1
      rw [insertS, if_pos rfl]
      by_cases h2 : k = k'
      · simp [lookupS, h2]
      · simp [lookupS, h2, Ne.symm h2]
    · rw [insertS, if_neg h1]
      by_cases h2 : k' = k
      · subst h2
        simp [lookupS, show ¬ (k' = k₀) from h1, Ne.symm (show ¬ (k' = k₀) from h1)]
      · simp only [lookupS, if_neg h2]
        exact ih

end Store

namespace NEL

theorem toList_ne_nil (c : NEL α) : c.toList ≠ [] := by simp [toList]

theorem last_eq_getLast? (c : NEL α) : some c.last = c.toList.getLast? := by
  simp [last, List.getLast?_eq_getLast c.toList (toList_ne_nil c)]

end NEL

theorem branchLoop_mono {s : Store} {fuel fuel' : Nat} {tip : Hash}
    {acc r : List Header} (h : branchLoop s fuel tip acc = some r)
    (hle : fuel ≤ fuel') : branchLoop s fuel' tip acc = some r := by
  induction fuel generalizing fuel' tip acc with
  | zero => simp [branchLoop] at h
  | succ n ih =>
    obtain ⟨m, rfl⟩ : ∃ m, fuel' = m + 1 := by
      cases fuel' with
      | zero => omega
      | succ m => exact ⟨m, rfl⟩
    rw [branchLoop] at h ⊢
    cases hl : lookupS s tip with
    | none => rw [hl] at h; simpa [hl] using h
    | some hd =>
      rw [hl] at h
      exact ih h (by omega)

theorem visitedPairs_mono {s : Store} {fuel fuel' : Nat} {tip : Hash}
    {ps : List (Hash × Header)} (h : visitedPairs s fuel tip = some ps)
    (hle : fuel ≤ fuel') : visitedPairs s fuel' tip = some ps := by
  induction fuel generalizing fuel' tip ps with
  | zero => simp [visitedPairs] at h
  | succ n ih =>
    obtain ⟨m, rfl⟩ : ∃ m, fuel' = m + 1 := by
      cases fuel' with
      | zero => omega
      | succ m => exact ⟨m, rfl⟩
    rw [visitedPairs] at h ⊢
    cases hl : lookupS s tip with
    | none => rw [hl] at h; simpa [hl] using h
    | some hd =>
      rw [hl] at h
      simp only [Option.map_eq_some'] at h
      obtain ⟨ps', hps', rfl⟩ := h
      simp only [Option.map_eq_some']
      exact ⟨ps', ih hps' (by omega), rfl⟩

/-- The loop result is the reversed fetch list appended to the initial
accumulator. -/
theorem branchLoop_visitedPairs {s : Store} {fuel : Nat} {tip : Hash}
    {acc r : List Header} (h : branchLoop s fuel tip acc = some r) :
    ∃ ps, visitedPairs s fuel tip = some ps ∧
      r = (ps.map Prod.snd).reverse ++ acc := by
  induction fuel generalizing tip acc r with
  | zero => simp [branchLoop] at h
  | succ n ih =>
    rw [branchLoop] at h
    cases hl : lookupS s tip with
    | none =>
      rw [hl] at h
      cases h
      exact ⟨[], by rw [visitedPairs, hl], by simp⟩
    | some hd =>
      rw [hl] at h
      obtain ⟨ps', hps', rfl⟩ := ih h
      refine ⟨(tip, hd) :: ps', ?_, by simp⟩
      rw [visitedPairs, hl]
      simp [hps']

theorem visitedPairs_branchLoop {s : Store} {fuel : Nat} {tip : Hash}
    {ps : List (Hash × Header)} (h : visitedPairs s fuel tip = some ps)
    (acc : List Header) :
    branchLoop s fuel tip acc = some ((ps.map Prod.snd).reverse ++ acc) := by
  induction fuel generalizing tip ps acc with
  | zero => simp [visitedPairs] at h
  | succ n ih =>
    rw [visitedPairs] at h
    rw [branchLoop]
    cases hl : lookupS s tip with
    | none =>
      rw [hl] at h
      cases h
      simp [hl]
    | some hd =>
      rw [hl] at h
      simp only [Option.map_eq_some'] at h
      obtain ⟨ps', hps', rfl⟩ := h
      simpa using ih hps' (hd :: acc)

/-- Every fetched pair is a store hit. -/
theorem visitedPairs_lookup {s : Store} {fuel : Nat} {tip : Hash}
    {ps : List (Hash × Header)} (h : visitedPairs s fuel tip = some ps) :
    ∀ p ∈ ps, lookupS s p.1 = some p.2 := by
  induction fuel generalizing tip ps with
  | zero => simp [visitedPairs] at h
  | succ n ih =>
    rw [visitedPairs] at h
    cases hl : lookupS s tip with
    | none => rw [hl] at h; cases h; simp
    | some hd =>
      rw [hl] at h
      simp only [Option.map_eq_some'] at h
      obtain ⟨ps', hps', rfl⟩ := h
      intro p hp
      rcases List.mem_cons.mp hp with rfl | hp'
      · exact hl
      · exact ih hps' p hp'

/-- Suffixes of the fetch list are themselves walks (from their own key,
with correspondingly less fuel). -/
theorem visitedPairs_drop {s : Store} {fuel : Nat} {tip : Hash}
    {ps : List (Hash × Header)} (h : visitedPairs s fuel tip = some ps) :
    ∀ i (hi : i < ps.length),
      visitedPairs s (fuel - i) (ps.get ⟨i, hi⟩).1 = some (ps.drop i) := by
  induction fuel generalizing tip ps with
  | zero => simp [visitedPairs] at h
  | succ n ih =>
    rw [visitedPairs] at h
    cases hl : lookupS s tip with
    | none =>
      rw [hl] at h; cases h; intro i hi; simp at hi
    | some hd =>
      rw [hl] at h
      simp only [Option.map_eq_some'] at h
      obtain ⟨ps', hps', rfl⟩ := h
      intro i hi
      cases i with
      | zero =>
        show visitedPairs s (n + 1 - 0) tip = some ((tip, hd) :: ps')
        rw [Nat.sub_zero, visitedPairs, hl]
        simp [hps']
      | succ j =>
        have hj : j < ps'.length := by simpa using hi
        simpa using ih hps' j hj

/-- A terminating walk never fetches the same key twice. -/
theorem visitedPairs_nodup_keys {s : Store} {fuel : Nat} {tip : Hash}
    {ps : List (Hash × Header)} (h : visitedPairs s fuel tip = some ps) :
    (ps.map Prod.fst).Nodup := by
  rw [List.nodup_iff_injective_get]
  intro a b hab
  by_contra hne
  have key : ∀ (i j : Fin (ps.map Prod.fst).length), i.1 < j.1 →
      (ps.map Prod.fst).get i = (ps.map Prod.fst).get j → False := by
    intro i j hij heq
    have hi : i.1 < ps.length := by simpa using i.2
    have hj : j.1 < ps.length := by simpa using j.2
    have e1 := visitedPairs_drop h i.1 hi
    have e2 := visitedPairs_drop h j.1 hj
    have hkey : (ps.get ⟨i.1, hi⟩).1 = (ps.get ⟨j.1, hj⟩).1 := by
      simpa [List.getElem_map] using heq
    rw [hkey] at e1
    have e1' := visitedPairs_mono e1 (show fuel - i.1 ≤ fuel by omega)
    have e2' := visitedPairs_mono e2 (show fuel - j.1 ≤ fuel by omega)
    rw [e1'] at e2'
    simp only [Option.some.injEq] at e2'
    have hlen := congrArg List.length e2'
    simp only [List.length_drop] at hlen
    omega
  rcases Nat.lt_or_ge a.1 b.1 with hlt | hge
  · exact key a b hlt hab
  · rcases Nat.lt_or_ge b.1 a.1 with h' | h'
    · exact key b a h' hab.symm
    · exact absurd (Fin.ext (Nat.le_antisymm h' hge)) hne

/-- A terminating walk fetches at most `s.length` headers: its fetched keys
are distinct and all present in the store. -/
theorem visitedPairs_length_le {s : Store} {fuel : Nat} {tip : Hash}
    {ps : List (Hash × Header)} (h : visitedPairs s fuel tip = some ps) :
    ps.length ≤ s.length := by
  have hnd : (ps.map Prod.fst).Nodup := visitedPairs_nodup_keys h
  have hsub : (ps.map Prod.fst) ⊆ keysOf s := by
    intro k hk
    obtain ⟨p, hp, rfl⟩ := List.mem_map.mp hk
    exact Store.lookupS_mem_keys (visitedPairs_lookup h p hp)
  have := List.Subperm.length_le (hnd.subperm hsub)
  simpa [keysOf] using this

/-- Fuel `steps + 1` suffices for a terminating walk. -/
theorem visitedPairs_min_fuel {s : Store} {fuel : Nat} {tip : Hash}
    {ps : List (Hash × Header)} (h : visitedPairs s fuel tip = some ps) :
    visitedPairs s (ps.length + 1) tip = some ps := by
  induction fuel generalizing tip ps with
  | zero => simp [visitedPairs] at h
  | succ n ih =>
    rw [visitedPairs] at h
    cases hl : lookupS s tip with
    | none =>
      rw [hl] at h
      cases h
      rw [visitedPairs, hl]
    | some hd =>
      rw [hl] at h
      simp only [Option.map_eq_some'] at h
      obtain ⟨ps', hps', rfl⟩ := h
      have := ih hps'
      rw [show ((tip, hd) :: ps').length + 1 = (ps'.length + 1) + 1 by simp,
        visitedPairs, hl]
      have := visitedPairs_mono this (show ps'.length + 1 ≤ ps'.length + 1 by omega)
      simp [this]

/-- Key hardening bound: whenever the backward walk terminates at all, fuel
`s.length + 1` (one more than the store size) already suffices, and the
number of fetched headers is at most the store size. -/
theorem branchLoop_store_bound {s : Store} {fuel : Nat} {tip : Hash}
    {r : List Header} (h : branchLoop s fuel tip [] = some r) :
    branchLoop s (s.length + 1) tip [] = some r ∧ r.length ≤ s.length := by
  obtain ⟨ps, hps, rfl⟩ := branchLoop_visitedPairs h
  have hlen : ps.length ≤ s.length := visitedPairs_length_le hps
  have hmin := visitedPairs_min_fuel hps
  have hmono := visitedPairs_mono hmin (show ps.length + 1 ≤ s.length + 1 by omega)
  refine ⟨?_, by simpa using hlen⟩
  simpa using visitedPairs_branchLoop hmono []

theorem walkLinked_append_last {s : Store} {l : List Header} {a h : Header}
    (hl : walkLinked s l = true) (hlast : l.getLast? = some a)
    (hh : lookupS s h.prev = some a) : walkLinked s (l ++ [h]) = true := by
  induction l with
  | nil => simp at hlast
  | cons x t ih =>
    cases t with
    | nil =>
      simp only [List.getLast?_singleton, Option.some.injEq] at hlast
      subst hlast
      simp [walkLinked, hh]
    | cons y u =>
      rw [walkLinked] at hl
      by_cases hxy : lookupS s y.prev = some x
      · rw [if_pos hxy] at hl
        have hlast' : (y :: u).getLast? = some a := by
          simpa [List.getLast?_cons_cons] using hlast
        have := ih hl hlast'
        show walkLinked s (x :: ((y :: u) ++ [h])) = true
        rw [show x :: ((y :: u) ++ [h]) = x :: y :: (u ++ [h]) by simp,
          walkLinked, if_pos hxy]
        simpa using this
      · rw [if_neg hxy] at hl
        exact absurd hl (by simp)

/-- A completed walk satisfies `WalkOk` and extends the initial deque. -/
theorem branchLoop_walkOk {s : Store} {fuel : Nat} {tip : Hash}
    {acc r : List Header} (h : branchLoop s fuel tip acc = some r) :
    ∃ ws, r = ws ++ acc ∧ WalkOk s tip ws := by
  induction fuel generalizing tip acc r with
  | zero => simp [branchLoop] at h
  | succ n ih =>
    rw [branchLoop] at h
    cases hl : lookupS s tip with
    | none =>
      rw [hl] at h
      cases h
      exact ⟨[], by simp, hl⟩
    | some hd =>
      rw [hl] at h
      obtain ⟨ws', hr, hok⟩ := ih h
      refine ⟨ws' ++ [hd], by simp [hr], ?_⟩
      cases ws' with
      | nil =>
        have hnone : lookupS s hd.prev = none := hok
        exact ⟨hnone, by simp [walkLinked], by simp [hl]⟩
      | cons root rest =>
        obtain ⟨hroot, hlink, hanchor⟩ := hok
        refine ⟨?_, ?_, ?_⟩
        · simpa using hroot
        · have hlast : (root :: rest).getLast? = lookupS s hd.prev := hanchor
          cases hgl : (root :: rest).getLast? with
          | none => simp at hgl
          | some a =>
            rw [hgl] at hlast
            exact walkLinked_append_last hlink hgl hlast.symm
        · show ((root :: rest) ++ [hd]).getLast? = lookupS s tip
          rw [List.getLast?_concat, hl]

theorem collectBranches_eq {H : Header → Hash} {s : Store} {g : Hash}
    {fuel : Nat} {ks : List Hash} {bs : List (NEL Header)}
    (h : collectBranches H s g fuel ks = some bs) :
    bs = ks.filterMap (fun k => (branchCore H s g fuel k).bind id) := by
  induction ks generalizing bs with
  | nil => simp [collectBranches] at h; simp [h]
  | cons k t ih =>
    rw [collectBranches] at h
    cases hb : branchCore H s g fuel k with
    | none => rw [hb] at h; cases h
    | some ob =>
      rw [hb] at h
      cases ob with
      | none =>
        simp only at h
        rw [List.filterMap_cons, hb]
        simpa using ih h
      | some b =>
        simp only [Option.map_eq_some'] at h
        obtain ⟨bs', hbs', rfl⟩ := h
        rw [List.filterMap_cons, hb]
        simpa using ih hbs'

theorem collectBranches_isSome {H : Header → Hash} {s : Store} {g : Hash}
    {fuel : Nat} {ks : List Hash} {bs : List (NEL Header)}
    (h : collectBranches H s g fuel ks = some bs) :
    ∀ k ∈ ks, (branchCore H s g fuel k).isSome := by
  induction ks generalizing bs with
  | nil => simp
  | cons k t ih =>
    rw [collectBranches] at h
    cases hb : branchCore H s g fuel k with
    | none => rw [hb] at h; cases h
    | some ob =>
      rw [hb] at h
      intro k' hk'
      rcases List.mem_cons.mp hk' with rfl | hk''
      · simp [hb]
      · cases ob with
        | none => exact ih h k' hk''
        | some b =>
          simp only [Option.map_eq_some'] at h
          obtain ⟨bs', hbs', rfl⟩ := h
          exact ih hbs' k' hk''

theorem collectBranches_of_forall {H : Header → Hash} {s : Store} {g : Hash}
    {fuel : Nat} {ks : List Hash}
    (h : ∀ k ∈ ks, (branchCore H s g fuel k).isSome) :
    collectBranches H s g fuel ks =
      some (ks.filterMap (fun k => (branchCore H s g fuel k).bind id)) := by
  induction ks with
  | nil => simp [collectBranches]
  | cons k t ih =>
    have hk := h k (by simp)
    rw [collectBranches]
    cases hb : branchCore H s g fuel k with
    | none => rw [hb] at hk; simp at hk
    | some ob =>
      have ht := ih (fun k' hk' => h k' (List.mem_cons_of_mem _ hk'))
      cases ob with
      | none => simp [ht, List.filterMap_cons, hb]
      | some b => simp [ht, List.filterMap_cons, hb]

theorem collectBranches_mem {H : Header → Hash} {s : Store} {g : Hash}
    {fuel : Nat} {ks : List Hash} {bs : List (NEL Header)} {k : Hash}
    {b : NEL Header} (h : collectBranches H s g fuel ks = some bs)
    (hk : k ∈ ks) (hb : branchCore H s g fuel k = some (some b)) : b ∈ bs := by
  rw [collectBranches_eq h]
  exact List.mem_filterMap.mpr ⟨k, hk, by simp [hb]⟩

theorem cmpNat_lt_iff {a b : Nat} : cmpNat a b = .lt ↔ a < b := by
  unfold cmpNat
  by_cases h1 : a < b
  · simp [h1]
  · by_cases h2 : a = b <;> simp [h1, h2]

theorem cmpBranch_lt {H : Header → Hash} {W : Header → Nat} {a b : NEL Header}
    (h : cmpBranch H W a b = .lt) :
    (tailWork W a = tailWork W b ∧ H (NEL.last b) < H (NEL.last a)) ∨
      tailWork W a < tailWork W b := by
  unfold cmpBranch at h
  by_cases he : tailWork W a = tailWork W b
  · rw [if_pos he] at h
    exact Or.inl ⟨he, cmpNat_lt_iff.mp h⟩
  · rw [if_neg he] at h
    exact Or.inr (cmpNat_lt_iff.mp h)

theorem cmpBranch_not_lt {H : Header → Hash} {W : Header → Nat} {a b : NEL Header}
    (h : cmpBranch H W a b ≠ .lt) :
    (tailWork W a = tailWork W b ∧ H (NEL.last a) ≤ H (NEL.last b)) ∨
      tailWork W b < tailWork W a := by
  unfold cmpBranch at h
  by_cases he : tailWork W a = tailWork W b
  · rw [if_pos he] at h
    refine Or.inl ⟨he, ?_⟩
    rcases Nat.lt_or_ge (H (NEL.last b)) (H (NEL.last a)) with hlt | hge
    · exact absurd (cmpNat_lt_iff.mpr hlt) h
    · exact hge
  · rw [if_neg he] at h
    rcases Nat.lt_or_ge (tailWork W a) (tailWork W b) with hlt | hge
    · exact absurd (cmpNat_lt_iff.mpr hlt) h
    · exact Or.inr (by omega)

theorem foldMax_spec (H : Header → Hash) (W : Header → Nat) :
    ∀ (xs : List (NEL Header)) (a : NEL Header),
      SelSpec H W (a :: xs)
        (xs.foldl (fun acc y => if cmpBranch H W y acc = .lt then acc else y) a) := by
  intro xs
  induction xs with
  | nil =>
    intro a
    constructor
    · simp
    · intro z hz
      simp only [List.foldl_nil]
      have hz' : z = a := by simpa using hz
      subst hz'
      exact Or.inr ⟨rfl, Nat.le_refl _⟩
  | cons y ys ih =>
    intro a
    rw [List.foldl_cons]
    by_cases hc : cmpBranch H W y a = .lt
    · rw [if_pos hc]
      obtain ⟨hmem, hall⟩ := ih a
      constructor
      · rcases List.mem_cons.mp hmem with hh | hh
        · rw [hh]
          exact List.mem_cons_self _ _
        · exact List.mem_cons_of_mem _ (List.mem_cons_of_mem _ hh)
      · intro z hz
        rcases List.mem_cons.mp hz with hza | hz'
        · rw [hza]
          exact hall a (List.mem_cons_self _ _)
        · rcases List.mem_cons.mp hz' with hzy | hz''
          · rw [hzy]
            have hy := cmpBranch_lt hc
            have hacc := hall a (List.mem_cons_self _ _)
            rcases hy with ⟨hw1, ht1⟩ | hw1
            · rcases hacc with h1 | ⟨h2, h3⟩
              · exact Or.inl (lt_of_eq_of_lt hw1 h1)
              · exact Or.inr ⟨hw1.trans h2, le_trans h3 (le_of_lt ht1)⟩
            · rcases hacc with h1 | ⟨h2, h3⟩
              · exact Or.inl (lt_trans hw1 h1)
              · exact Or.inl (lt_of_lt_of_eq hw1 h2)
          · exact hall z (List.mem_cons_of_mem _ hz'')
    · rw [if_neg hc]
      obtain ⟨hmem, hall⟩ := ih y
      constructor
      · exact List.mem_cons_of_mem _ hmem
      · intro z hz
        rcases List.mem_cons.mp hz with hza | hz'
        · rw [hza]
          have hnl := cmpBranch_not_lt hc
          have hy := hall y (List.mem_cons_self _ _)
          rcases hnl with ⟨hw1, ht1⟩ | hw1
          · rcases hy with h1 | ⟨h2, h3⟩
            · exact Or.inl (lt_of_eq_of_lt hw1.symm h1)
            · exact Or.inr ⟨hw1.symm.trans h2, le_trans h3 ht1⟩
          · rcases hy with h1 | ⟨h2, h3⟩
            · exact Or.inl (lt_trans hw1 h1)
            · exact Or.inl (lt_of_lt_of_eq hw1 h2)
        · exact hall z hz'

theorem selMax_spec {H : Header → Hash} {W : Header → Nat}
    {l : List (NEL Header)} {r : NEL Header}
    (h : selMax H W l = some r) : SelSpec H W l r := by
  cases l with
  | nil => simp [selMax] at h
  | cons x xs =>
    simp only [selMax, Option.some.injEq] at h
    subst h
    exact foldMax_spec H W xs x

/-- The selected branch is unique once tip identities are injective on the
collection. -/
theorem selSpec_unique {H : Header → Hash} {W : Header → Nat}
    {l : List (NEL Header)} {r₁ r₂ : NEL Header}
    (hinj : ∀ a ∈ l, ∀ b ∈ l, H (NEL.last a) = H (NEL.last b) → a = b)
    (h₁ : SelSpec H W l r₁) (h₂ : SelSpec H W l r₂) : r₁ = r₂ := by
  obtain ⟨hm₁, hall₁⟩ := h₁
  obtain ⟨hm₂, hall₂⟩ := h₂
  rcases hall₁ r₂ hm₂ with hA | ⟨hAw, hAt⟩
  · rcases hall₂ r₁ hm₁ with hB | ⟨hBw, hBt⟩
    · omega
    · omega
  · rcases hall₂ r₁ hm₁ with hB | ⟨hBw, hBt⟩
    · omega
    · exact hinj r₁ hm₁ r₂ hm₂ (Nat.le_antisymm hAt hBt)

/-- `SelSpec` only depends on the membership of the collection. -/
theorem selSpec_perm {H : Header → Hash} {W : Header → Nat}
    {l l' : List (NEL Header)} {r : NEL Header}
    (hp : l.Perm l') (h : SelSpec H W l r) : SelSpec H W l' r :=
  ⟨hp.mem_iff.mp h.1, fun x hx => h.2 x (hp.mem_iff.mpr hx)⟩

theorem wellKeyed_lookup {H : Header → Hash} {s : Store} {k : Hash}
    {v : Header} (hw : WellKeyedP H s) (h : lookupS s k = some v) : H v = k :=
  hw (k, v) (Store.lookupS_mem h)

/-- The reconstructed branch's last element is the header stored at the
candidate tip key (the first header the walk fetched). -/
theorem branchCore_last {H : Header → Hash} {s : Store} {g : Hash}
    {fuel : Nat} {k : Hash} {b : NEL Header}
    (h : branchCore H s g fuel k = some (some b)) :
    lookupS s k = some (NEL.last b) ∧ H b.head = g := by
  unfold branchCore at h
  simp only [Option.map_eq_some'] at h
  obtain ⟨ws, hws, hmatch⟩ := h
  obtain ⟨ws', hws'A, hok⟩ := branchLoop_walkOk hws
  rw [List.append_nil] at hws'A
  subst hws'A
  cases ws with
  | nil => simp at hmatch
  | cons root rest =>
    have hmatch' : (if H root = g then some (⟨root, rest⟩ : NEL Header) else none)
        = some b := hmatch
    by_cases hg : H root = g
    · rw [if_pos hg] at hmatch'
      obtain ⟨hroot, hlink, hanchor⟩ := hok
      cases hmatch'
      constructor
      · rw [← hanchor]
        exact (NEL.last_eq_getLast? ⟨root, rest⟩).symm
      · exact hg
    · rw [if_neg hg] at hmatch'
      cases hmatch'

/-- A successful branch reconstruction implies the tip key is present in
the store. -/
theorem branchCore_mem_keys {H : Header → Hash} {s : Store} {g : Hash}
    {fuel : Nat} {k : Hash} {b : NEL Header}
    (h : branchCore H s g fuel k = some (some b)) : k ∈ keysOf s :=
  Store.lookupS_mem_keys (branchCore_last h).1

/-- A successful branch reconstruction at any fuel is reproduced at the
canonical fuel `s.length + 1`. -/
theorem branchCore_store_fuel {H : Header → Hash} {s : Store} {g : Hash}
    {fuel : Nat} {k : Hash} {ob : Option (NEL Header)}
    (h : branchCore H s g fuel k = some ob) :
    branchCore H s g (s.length + 1) k = some ob := by
  unfold branchCore at h ⊢
  simp only [Option.map_eq_some'] at h
  obtain ⟨ws, hws, rfl⟩ := h
  rw [(branchLoop_store_bound hws).1]
  rfl

/-- Sums of nonnegative work over a duplicate-free sublist of headers. -/
theorem sum_le_of_nodup_subset (W : Header → Nat) {l₁ l₂ : List Header}
    (hnd : l₁.Nodup) (hsub : l₁ ⊆ l₂) : (l₁.map W).sum ≤ (l₂.map W).sum := by
  obtain ⟨l, hperm, hsl⟩ := hnd.subperm hsub
  have h1 : (l.map W).sum = (l₁.map W).sum := (hperm.map W).sum_eq
  have h2 : (l.map W).sum ≤ (l₂.map W).sum :=
    (hsl.map W).sum_le_sum (fun a _ => Nat.zero_le a)
  omega

theorem mem_insertS {s : Store} {k : Hash} {v : Header} {p : Hash × Header}
    (h : p ∈ insertS s k v) : p ∈ s ∨ p = (k, v) := by
  induction s with
  | nil => exact Or.inr (by simpa [insertS] using h)
  | cons q t ih =>
    obtain ⟨k', v'⟩ := q
    by_cases hk : k' = k
    · subst hk
      rw [insertS, if_pos rfl] at h
      rcases List.mem_cons.mp h with rfl | h'
      · exact Or.inr rfl
      · exact Or.inl (List.mem_cons_of_mem _ h')
    · rw [insertS, if_neg hk] at h
      rcases List.mem_cons.mp h with rfl | h'
      · exact Or.inl (List.mem_cons_self _ _)
      · rcases ih h' with h'' | h''
        · exact Or.inl (List.mem_cons_of_mem _ h'')
        · exact Or.inr h''

/-- Batch insertion under each header's own hash keeps the store well
keyed. -/
theorem insertAll_wellKeyed {H : Header → Hash} {s : Store}
    (hs : WellKeyedP H s) (l : List Header) :
    WellKeyedP H (insertAll H s l) := by
  induction l generalizing s with
  | nil => exact hs
  | cons h t ih =>
    refine ih (fun p hp => ?_)
    rcases mem_insertS hp with h' | h'
    · exact hs p h'
    · rw [h']

/-- Values found in a batch-built store come from the batch or the base
store. -/
theorem lookup_insertAll {H : Header → Hash} {s : Store} {l : List Header}
    {k : Hash} {v : Header} (h : lookupS (insertAll H s l) k = some v) :
    v ∈ l ∨ lookupS s k = some v := by
  induction l generalizing s with
  | nil => exact Or.inr h
  | cons hd t ih =>
    rcases ih h with h' | h'
    · exact Or.inl (List.mem_cons_of_mem _ h')
    · rw [Store.lookupS_insertS] at h'
      by_cases hk : k = H hd
      · rw [if_pos hk] at h'
        cases h'
        exact Or.inl (List.mem_cons_self _ _)
      · rw [if_neg hk] at h'
        exact Or.inr h'

/-- Structure of a reconstructed branch over a well-keyed store: the hashes
along the branch are pairwise distinct, the root hashes to genesis, and
every branch element is stored under its own hash. -/
theorem branch_facts {H : Header → Hash} {s : Store} {g : Hash} {fuel : Nat}
    {k : Hash} {b : NEL Header} (hwk : WellKeyedP H s)
    (hb : branchCore H s g fuel k = some (some b)) :
    (b.toList.map H).Nodup ∧ H b.head = g ∧
      ∀ v ∈ b.toList, lookupS s (H v) = some v := by
  unfold branchCore at hb
  simp only [Option.map_eq_some'] at hb
  obtain ⟨ws, hws, hmatch⟩ := hb
  obtain ⟨ps, hps, hwsps⟩ := branchLoop_visitedPairs hws
  rw [List.append_nil] at hwsps
  subst hwsps
  have hkeys : ∀ p ∈ ps, lookupS s p.1 = some p.2 := visitedPairs_lookup hps
  have hmapfst : ps.map Prod.fst = ps.map (fun p => H p.2) :=
    List.map_congr_left (fun p hp => (wellKeyed_lookup hwk (hkeys p hp)).symm)
  have hndkeys : ((ps.map Prod.snd).map H).Nodup := by
    have := visitedPairs_nodup_keys hps
    rw [hmapfst] at this
    simpa [List.map_map, Function.comp] using this
  have hmem : ∀ v ∈ ps.map Prod.snd, lookupS s (H v) = some v := by
    intro v hv
    obtain ⟨p, hp, rfl⟩ := List.mem_map.mp hv
    have := hkeys p hp
    rwa [wellKeyed_lookup hwk this]
  cases hws' : (ps.map Prod.snd).reverse with
  | nil => rw [hws'] at hmatch; cases hmatch
  | cons root rest =>
    rw [hws'] at hmatch
    have hmatch' : (if H root = g then some (⟨root, rest⟩ : NEL Header) else none)
        = some b := hmatch
    by_cases hg : H root = g
    · rw [if_pos hg] at hmatch'
      cases hmatch'
      refine ⟨?_, hg, ?_⟩
      · have : ((ps.map Prod.snd).reverse.map H).Nodup := by
          rw [List.map_reverse]
          exact List.nodup_reverse.mpr hndkeys
        rw [hws'] at this
        simpa [NEL.toList] using this
      · intro v hv
        have : v ∈ (ps.map Prod.snd).reverse := by
          rw [hws']
          simpa [NEL.toList] using hv
        exact hmem v (List.mem_reverse.mp this)
    · rw [if_neg hg] at hmatch'
      cases hmatch'

/-!
## Claim C2 — rollback beyond the chain height
-/
/-- C2 (amended): for every height strictly above the current chain height,
`rollback` panics (`Vec::drain` with an out-of-range start; modelled as
`none`) rather than returning a typed `InvalidHeight` error: the function
never constructs an error value. -/
theorem claim_C2 (H : Header → Hash) (c : Cache) (h : Nat)
    (hh : c.chain.tail.length < h) : Cache.rollback H c h = none := by
  unfold Cache.rollback
  rw [if_neg (by omega)]

theorem claim_C2_witness :
    Cache.rollback hashNonce (Cache.new hashNonce gHdr) 1 = none :=
  claim_C2 hashNonce (Cache.new hashNonce gHdr) 1 (by decide)

/-- C2 (counterexample): at height 1 on a chain of height 0, `rollback`
yields no value at all (the drain panics) — in particular it does not fail
with the typed error `InvalidHeight`. -/
theorem claim_C2_counterexample :
    (Cache.new hashNonce gHdr).chain.tail.length < 1 ∧
    Cache.rollback hashNonce (Cache.new hashNonce gHdr) 1 = none ∧
    Cache.rollback hashNonce (Cache.new hashNonce gHdr) 1 ≠
      some (Except.error ChainError.invalidHeight) := by
  have haux : Cache.rollback hashNonce (Cache.new hashNonce gHdr) 1 = none := by decide
  exact ⟨by decide, haux, by rw [haux]; intro hc; cases hc⟩

/-!
## Claim C7 — bulk construction from zero headers
-/
/-- C7 (amended): bulk construction from zero headers yields no cache at
all: `NonEmpty::from_vec(..).unwrap()` panics (modelled as `none`), and the
constructor's signature (`-> Self`) has no error channel through which
`EmptyChain` could be reported. -/
theorem claim_C7 (H : Header → Hash) : Cache.fromChain H [] = none := rfl

/-- C7 (counterexample): at the concrete empty input, construction aborts
(no value) instead of reporting the typed error `EmptyChain`. -/
theorem claim_C7_counterexample : Cache.fromChain hashNonce [] = none := rfl

/-!
## Claim C10 — the import result is always `Ok`
-/
/-- C10: whenever `import_blocks` returns, its result is
`Ok((tip, height))`: the error branch of its `Result` is never produced. -/
theorem claim_C10 (H : Header → Hash) (W : Header → Nat) (ctx : Context)
    (c : Cache) (hs : List Header) (r : Except ChainError (Cache × Hash × Nat))
    (hr : Cache.importBlocks H W ctx c hs = some r) :
    ∃ c' t ht, r = Except.ok (c', t, ht) := by
  rw [Cache.importBlocks] at hr
  cases hch : longestChainOver H W (insertAll H c.headers hs) c.genesis
      ((insertAll H c.headers hs).length + 1) (keysOf (insertAll H c.headers hs)) with
  | none =>
    rw [hch] at hr
    cases hr
  | some ch =>
    rw [hch] at hr
    cases hr
    exact ⟨_, _, _, rfl⟩

theorem claim_C10_witness :
    ∃ c' t ht,
      (Except.ok ((⟨[(1, gHdr)], ⟨gHdr, []⟩, 1, 1⟩ : Cache), 1, 0) :
        Except ChainError (Cache × Hash × Nat)) = Except.ok (c', t, ht) :=
  claim_C10 hashNonce workOne () (Cache.new hashNonce gHdr) [] _ (by decide)

/-!
## Claim C3 — the cached tip field
-/
/-- C3 (amended): after construction (`new`, `from`) and after every
successful import the cached tip equals the hash of the active chain's last
element; a successful rollback, however, leaves the cached tip unchanged
(it is not updated to the new last element). -/
theorem claim_C3 (H : Header → Hash) (W : Header → Nat) (g : Header)
    (l : List Header) (c₁ : Cache) (ctx : Context) (c₂ : Cache)
    (hs : List Header) (c₂' : Cache) (t : Hash) (ht : Nat)
    (c₃ : Cache) (h : Nat) (c₃' : Cache)
    (hf : Cache.fromChain H l = some c₁)
    (hi : Cache.importBlocks H W ctx c₂ hs = some (Except.ok (c₂', t, ht)))
    (hr : Cache.rollback H c₃ h = some (Except.ok c₃')) :
    (Cache.new H g).tip = H (NEL.last (Cache.new H g).chain) ∧
    c₁.tip = H (NEL.last c₁.chain) ∧
    c₂'.tip = H (NEL.last c₂'.chain) ∧
    c₃'.tip = c₃.tip := by
  refine ⟨?_, ?_, ?_, ?_⟩
  · simp [Cache.new, NEL.last, NEL.toList]
  · cases l with
    | nil => cases hf
    | cons gh th =>
      rw [Cache.fromChain] at hf
      cases hf
      rfl
  · rw [Cache.importBlocks] at hi
    cases hch : longestChainOver H W (insertAll H c₂.headers hs) c₂.genesis
        ((insertAll H c₂.headers hs).length + 1)
        (keysOf (insertAll H c₂.headers hs)) with
    | none => rw [hch] at hi; cases hi
    | some ch => rw [hch] at hi; cases hi; rfl
  · rw [Cache.rollback] at hr
    by_cases hle : h ≤ c₃.chain.tail.length
    · rw [if_pos hle] at hr
      cases hr
      rfl
    · rw [if_neg hle] at hr
      cases hr

theorem claim_C3_witness :
    (Cache.new hashNonce gHdr).tip = hashNonce (NEL.last (Cache.new hashNonce gHdr).chain) ∧
    cacheGA.tip = hashNonce (NEL.last cacheGA.chain) ∧
    (⟨[(1, gHdr)], ⟨gHdr, []⟩, 1, 1⟩ : Cache).tip =
      hashNonce (NEL.last (⟨[(1, gHdr)], ⟨gHdr, []⟩, 1, 1⟩ : Cache).chain) ∧
    cacheGA0.tip = cacheGA.tip :=
  claim_C3 hashNonce workOne gHdr [gHdr, aHdr] cacheGA ()
    (Cache.new hashNonce gHdr) [] ⟨[(1, gHdr)], ⟨gHdr, []⟩, 1, 1⟩ 1 0
    cacheGA 0 cacheGA0 (by decide) (by decide) (by decide)

/-- C3 (counterexample): rolling `cacheGA` back to height 0 succeeds but
leaves the cached tip at 10 while the chain's last element (genesis) hashes
to 1: the cached tip is not updated. -/
theorem claim_C3_counterexample :
    Cache.rollback hashNonce cacheGA 0 = some (Except.ok cacheGA0) ∧
    cacheGA0.tip ≠ hashNonce (NEL.last cacheGA0.chain) := by
  constructor
  · decide
  · decide

/-!
## Claim C6 — rollback within the chain height
-/
theorem lookup_removeAll (H : Header → Hash) (s : Store) (l : List Header)
    (k : Hash) :
    lookupS (l.foldl (fun s b => removeS s (H b)) s) k =
      if k ∈ l.map H then none else lookupS s k := by
  induction l generalizing s with
  | nil => simp
  | cons b t ih =>
    rw [List.foldl_cons, ih]
    by_cases h1 : k ∈ t.map H
    · simp [h1]
    · rw [if_neg h1, Store.lookupS_removeS]
      by_cases h2 : k = H b
      · simp [h2]
      · simp [h1, h2]

/-- C6: for every height at most the current chain height, rollback
succeeds with `Ok(())`, the chain becomes exactly the prefix of indices
`0..=height` (length `height + 1`), every drained header's hash is removed
from the store, and every other key's binding is unchanged. -/
theorem claim_C6 (H : Header → Hash) (c : Cache) (h : Nat) (k : Hash)
    (hh : h ≤ c.chain.tail.length) :
    ∃ c', Cache.rollback H c h = some (Except.ok c') ∧
      c'.chain.head = c.chain.head ∧
      c'.chain.tail = c.chain.tail.take h ∧
      NEL.len c'.chain = h + 1 ∧
      lookupS c'.headers k =
        (if k ∈ (c.chain.tail.drop h).map H then none else lookupS c.headers k) := by
  refine ⟨⟨(c.chain.tail.drop h).foldl (fun s b => removeS s (H b)) c.headers,
      ⟨c.chain.head, c.chain.tail.take h⟩, c.tip, c.genesis⟩, ?_, rfl, rfl, ?_, ?_⟩
  · rw [Cache.rollback, if_pos hh]
  · simp only [NEL.len, List.length_take]
    omega
  · exact lookup_removeAll H c.headers (c.chain.tail.drop h) k

theorem claim_C6_witness :
    ∃ c', Cache.rollback hashNonce cacheGA 0 = some (Except.ok c') ∧
      c'.chain.head = cacheGA.chain.head ∧
      c'.chain.tail = cacheGA.chain.tail.take 0 ∧
      NEL.len c'.chain = 0 + 1 ∧
      lookupS c'.headers 10 =
        (if 10 ∈ (cacheGA.chain.tail.drop 0).map hashNonce then none
          else lookupS cacheGA.headers 10) :=
  claim_C6 hashNonce cacheGA 0 10 (by decide)

/-!
## Claim C5 — branch reconstruction reaches genesis exactly
-/
/-- C5: when the backward walk from a candidate tip exits with deque `ws`,
the deque satisfies `WalkOk` (it is anchored at the tip's stored header,
adjacent elements are linked through the store, and the walk stopped
because the deepest header's predecessor is absent), and the
reconstruction succeeds — returning exactly the ordered genesis-to-tip
sequence `ws` — if and only if the popped root hashes to the genesis
identity; in every other case (empty walk, or a root that is not genesis)
the result is `None`. -/
theorem claim_C5 (H : Header → Hash) (s : Store) (g tip : Hash) (fuel : Nat)
    (ws : List Header) (hw : branchLoop s fuel tip [] = some ws) :
    WalkOk s tip ws ∧
    branchCore H s g fuel tip = some (wsBranch H g ws) := by
  obtain ⟨ws', hws', hok⟩ := branchLoop_walkOk hw
  rw [List.append_nil] at hws'
  subst hws'
  refine ⟨hok, ?_⟩
  unfold branchCore
  rw [hw]
  cases ws <;> rfl

theorem claim_C5_witness :
    WalkOk storeFork 10 [gHdr, aHdr] ∧
    branchCore hashNonce storeFork 1 4 10 = some (wsBranch hashNonce 1 [gHdr, aHdr]) :=
  claim_C5 hashNonce storeFork 1 10 4 [gHdr, aHdr] (by decide)

/-!
## Claim C9 — termination of the backward walk
-/
/-- C9 (amended): the walk is not terminating on every store — a cyclic
predecessor link can make it run forever — but whenever it does terminate,
its length is bounded by the store size: at most `s.length` headers are
fetched, and fuel `s.length + 1` reproduces the result. -/
theorem claim_C9 (s : Store) (fuel : Nat) (tip : Hash) (r : List Header)
    (h : branchLoop s fuel tip [] = some r) :
    branchLoop s (s.length + 1) tip [] = some r ∧ r.length ≤ s.length :=
  branchLoop_store_bound h

theorem claim_C9_witness :
    branchLoop storeFork (storeFork.length + 1) 10 [] = some [gHdr, aHdr] ∧
    [gHdr, aHdr].length ≤ storeFork.length :=
  claim_C9 storeFork 4 10 [gHdr, aHdr] (by decide)

theorem cycStore_spins : ∀ (fuel : Nat) (acc : List Header),
    branchLoop cycStore fuel 5 acc = none := by
  intro fuel
  induction fuel with
  | zero => intro acc; rfl
  | succ n ih =>
    intro acc
    show branchLoop cycStore n 5 (loopHdr :: acc) = none
    exact ih _

/-- C9 (counterexample): on the cyclic store the backward walk never
terminates — no amount of fuel makes the loop exit, falsifying the claim
that the walk terminates on every store contents. -/
theorem claim_C9_counterexample : ¬ branchTerminates cycStore 5 := by
  rintro ⟨fuel, hf⟩
  rw [cycStore_spins fuel []] at hf
  cases hf

/-!
## Claim C8 — `get_block` sees exactly the active chain
-/
theorem findHeader_none_iff (H : Header → Hash) (hash : Hash) :
    ∀ (l : List Header) (i0 : Nat),
      Cache.findHeader H hash i0 l = none ↔ ∀ h ∈ l, H h ≠ hash := by
  intro l
  induction l with
  | nil => intro i0; simp [Cache.findHeader]
  | cons x t ih =>
    intro i0
    rw [Cache.findHeader]
    by_cases hx : H x = hash
    · rw [if_pos hx]
      simp [hx]
    · rw [if_neg hx, ih]
      simp [hx]

theorem findHeader_some_iff (H : Header → Hash) (hash : Hash) :
    ∀ (l : List Header) (i0 i : Nat) (h : Header),
      Cache.findHeader H hash i0 l = some (i, h) ↔
        ∃ j, i = i0 + j ∧ l[j]? = some h ∧ H h = hash ∧
          ∀ j' < j, ∀ h', l[j']? = some h' → H h' ≠ hash := by
  intro l
  induction l with
  | nil => intro i0 i h; simp [Cache.findHeader]
  | cons x t ih =>
    intro i0 i h
    rw [Cache.findHeader]
    by_cases hx : H x = hash
    · rw [if_pos hx]
      constructor
      · intro he
        simp only [Option.some.injEq, Prod.mk.injEq] at he
        obtain ⟨h1, h2⟩ := he
        subst h1
        subst h2
        exact ⟨0, by omega, by simp, hx, by omega⟩
      · rintro ⟨j, rfl, hget, hH, hprev⟩
        cases j with
        | zero =>
          simp only [List.getElem?_cons_zero, Option.some.injEq] at hget
          subst hget
          simp
        | succ j' => exact absurd hx (hprev 0 (by omega) x (by simp))
    · rw [if_neg hx, ih]
      constructor
      · rintro ⟨j, rfl, hget, hH, hprev⟩
        refine ⟨j + 1, by omega, by simpa using hget, hH, ?_⟩
        intro j' hj' h' hget'
        cases j' with
        | zero =>
          simp only [List.getElem?_cons_zero, Option.some.injEq] at hget'
          subst hget'
          exact hx
        | succ j'' => exact hprev j'' (by omega) h' (by simpa using hget')
      · rintro ⟨j, rfl, hget, hH, hprev⟩
        cases j with
        | zero =>
          simp only [List.getElem?_cons_zero, Option.some.injEq] at hget
          subst hget
          exact absurd hH hx
        | succ j' =>
          refine ⟨j', by omega, by simpa using hget, hH, ?_⟩
          intro j'' hj'' h' hget'
          exact hprev (j'' + 1) (by omega) h' (by simpa using hget')

/-- C8: `get_block(id)` answers `Some((height, header))` exactly when the
header at zero-based chain position `height` hashes to `id` and no earlier
chain position does; it answers `None` exactly when no active-chain element
hashes to `id` — in particular for identities known only to the store as
orphans, since the scan never consults the store. -/
theorem claim_C8 (H : Header → Hash) (c : Cache) (hash : Hash) (i : Nat)
    (h : Header) :
    (Cache.getBlock H c hash = some (i, h) ↔
      (c.chain.toList[i]? = some h ∧ H h = hash ∧
        ∀ j < i, ∀ h', c.chain.toList[j]? = some h' → H h' ≠ hash)) ∧
    (Cache.getBlock H c hash = none ↔ ∀ h' ∈ c.chain.toList, H h' ≠ hash) := by
  constructor
  · rw [Cache.getBlock, findHeader_some_iff]
    constructor
    · rintro ⟨j, rfl, hget, hH, hprev⟩
      rw [Nat.zero_add]
      exact ⟨hget, hH, hprev⟩
    · rintro ⟨hget, hH, hprev⟩
      exact ⟨i, by omega, hget, hH, hprev⟩
  · rw [Cache.getBlock]
    exact findHeader_none_iff H hash c.chain.toList 0

/-!
## Claim C1 — the active chain maximizes cumulative work
-/
/-- C1: on every cache state reachable from construction by any sequence
of imports, every branch reconstructible back to genesis from the header
store carries at most the active chain's cumulative work (both summed over
non-genesis headers). -/
theorem claim_C1 (H : Header → Hash) (W : Header → Nat) (c : Cache)
    (tip : Hash) (fuel : Nat) (b : NEL Header)
    (hc : Reachable H W c)
    (hb : branchCore H c.headers c.genesis fuel tip = some (some b)) :
    tailWork W b ≤ tailWork W c.chain := by
  cases hc with
  | new g =>
    unfold branchCore at hb
    simp only [Option.map_eq_some'] at hb
    obtain ⟨ws, hws, hmatch⟩ := hb
    have hlen := (branchLoop_store_bound hws).2
    cases ws with
    | nil => cases hmatch
    | cons root rest =>
      have hmatch' :
          (if H root = (Cache.new H g).genesis
            then some (⟨root, rest⟩ : NEL Header) else none) = some b := hmatch
      by_cases hg : H root = (Cache.new H g).genesis
      · rw [if_pos hg] at hmatch'
        cases hmatch'
        have hrest : rest = [] := by
          have h1 : (root :: rest).length ≤ 1 := by
            simpa [Cache.new, insertS] using hlen
          cases rest with
          | nil => rfl
          | cons a u => simp at h1
        subst hrest
        simp [tailWork]
      · rw [if_neg hg] at hmatch'
        cases hmatch'
  | load l c2 hf =>
    cases l with
    | nil => cases hf
    | cons g0 t0 =>
      rw [Cache.fromChain] at hf
      cases hf
      have hwk : WellKeyedP H (insertAll H [] (g0 :: t0)) :=
        insertAll_wellKeyed (fun p hp => by cases hp) _
      obtain ⟨hnd, hroot, hmem⟩ := branch_facts hwk hb
      have hndc : ¬ H b.head ∈ b.tail.map H ∧ (b.tail.map H).Nodup := by
        rw [NEL.toList] at hnd
        exact List.nodup_cons.mp (by simpa using hnd)
      have htailnd : b.tail.Nodup := List.Nodup.of_map H hndc.2
      have hsub : ∀ v ∈ b.tail, v ∈ t0 := by
        intro v hv
        have hvtl : v ∈ b.toList := by
          rw [NEL.toList]
          exact List.mem_cons_of_mem _ hv
        have hlk := hmem v hvtl
        have hvl : v ∈ g0 :: t0 := by
          rcases lookup_insertAll hlk with h' | h'
          · exact h'
          · cases h'
        have hneq : H v ≠ H b.head := fun he => by
          refine hndc.1 ?_
          rw [← he]
          exact List.mem_map_of_mem H hv
        rcases List.mem_cons.mp hvl with rfl | hvt
        · exact absurd (hroot.trans rfl) (fun he => hneq he.symm)
        · exact hvt
      have hle : (b.tail.map W).sum ≤ (t0.map W).sum :=
        sum_le_of_nodup_subset W htailnd hsub
      simpa [tailWork] using hle
  | imp c0 ctx hs c2 t ht hreach hi =>
    rw [Cache.importBlocks] at hi
    cases hch : longestChainOver H W (insertAll H c0.headers hs) c0.genesis
        ((insertAll H c0.headers hs).length + 1)
        (keysOf (insertAll H c0.headers hs)) with
    | none => rw [hch] at hi; cases hi
    | some ch =>
      rw [hch] at hi
      cases hi
      show tailWork W b ≤ tailWork W ch
      have hb' := branchCore_store_fuel hb
      have htip := branchCore_mem_keys hb
      unfold longestChainOver at hch
      cases hcol : collectBranches H (insertAll H c0.headers hs) c0.genesis
          ((insertAll H c0.headers hs).length + 1)
          (keysOf (insertAll H c0.headers hs)) with
      | none => rw [hcol] at hch; cases hch
      | some bs =>
        rw [hcol] at hch
        have hsel : selMax H W bs = some ch := hch
        have hmemb : b ∈ bs := collectBranches_mem hcol htip hb'
        obtain ⟨-, hall⟩ := selMax_spec hsel
        rcases hall b hmemb with h1 | ⟨h2, -⟩
        · omega
        · omega

theorem claim_C1_witness :
    tailWork workOne (⟨gHdr, []⟩ : NEL Header) ≤
      tailWork workOne (Cache.new hashNonce gHdr).chain :=
  claim_C1 hashNonce workOne (Cache.new hashNonce gHdr) 1 2 ⟨gHdr, []⟩
    (Reachable.new gHdr) (by decide)

/-!
## Claim C4 — deterministic tie-break on equal work
-/
/-- C4: over a well-keyed store, fork choice is independent of the key
enumeration order (any permutation of the store's keys selects the same
chain — the `HashMap` iteration order cannot influence the result), and
the selected chain beats every reconstructible branch: strictly more work,
or equal work and a tip identity no larger — so on exact work ties the
numerically smaller tip identity wins. -/
theorem claim_C4 (H : Header → Hash) (W : Header → Nat) (s : Store) (g : Hash)
    (ks : List Hash) (sel : NEL Header) (k : Hash) (b : NEL Header)
    (hwk : WellKeyedP H s)
    (hks : ks.Perm (keysOf s))
    (hsel : longestChainOver H W s g (s.length + 1) (keysOf s) = some sel)
    (hk : k ∈ keysOf s)
    (hb : branchCore H s g (s.length + 1) k = some (some b)) :
    longestChainOver H W s g (s.length + 1) ks = some sel ∧
    (tailWork W b < tailWork W sel ∨
      (tailWork W b = tailWork W sel ∧ H (NEL.last sel) ≤ H (NEL.last b))) := by
  unfold longestChainOver at hsel
  cases hcol : collectBranches H s g (s.length + 1) (keysOf s) with
  | none => rw [hcol] at hsel; cases hsel
  | some bs =>
    rw [hcol] at hsel
    have hselm : selMax H W bs = some sel := hsel
    have hspec := selMax_spec hselm
    have hmemf : ∀ a0 ∈ bs, ∃ ka, branchCore H s g (s.length + 1) ka = some (some a0) := by
      intro a0 ha0
      rw [collectBranches_eq hcol] at ha0
      obtain ⟨ka, hka, hfa⟩ := List.mem_filterMap.mp ha0
      refine ⟨ka, ?_⟩
      cases hbc : branchCore H s g (s.length + 1) ka with
      | none => rw [hbc] at hfa; cases hfa
      | some ob =>
        rw [hbc] at hfa
        cases ob with
        | none => cases hfa
        | some x =>
          cases hfa
          rfl
    have htips : ∀ a ∈ bs, ∀ a' ∈ bs, H (NEL.last a) = H (NEL.last a') → a = a' := by
      intro a ha a' ha' he
      obtain ⟨ka, hka⟩ := hmemf a ha
      obtain ⟨ka', hka'⟩ := hmemf a' ha'
      have h1 : H (NEL.last a) = ka := wellKeyed_lookup hwk (branchCore_last hka).1
      have h2 : H (NEL.last a') = ka' := wellKeyed_lookup hwk (branchCore_last hka').1
      rw [h1, h2] at he
      rw [he] at hka
      rw [hka'] at hka
      exact (Option.some.inj (Option.some.inj hka)).symm
    have hissome : ∀ k' ∈ ks, (branchCore H s g (s.length + 1) k').isSome := by
      intro k' hk'
      exact collectBranches_isSome hcol k' (hks.mem_iff.mp hk')
    have hcol' := collectBranches_of_forall hissome
    have hbs : bs = (keysOf s).filterMap
        (fun k' => (branchCore H s g (s.length + 1) k').bind id) :=
      collectBranches_eq hcol
    have hpermbs : (ks.filterMap
        (fun k' => (branchCore H s g (s.length + 1) k').bind id)).Perm bs := by
      rw [hbs]
      exact hks.filterMap _
    have hfirst : longestChainOver H W s g (s.length + 1) ks = some sel := by
      unfold longestChainOver
      rw [hcol']
      show selMax H W (ks.filterMap
        (fun k' => (branchCore H s g (s.length + 1) k').bind id)) = some sel
      cases hsel2 : selMax H W (ks.filterMap
          (fun k' => (branchCore H s g (s.length + 1) k').bind id)) with
      | none =>
        cases hemp : ks.filterMap
            (fun k' => (branchCore H s g (s.length + 1) k').bind id) with
        | nil =>
          rw [hemp] at hpermbs
          rw [hpermbs.symm.eq_nil] at hselm
          cases hselm
        | cons x xs =>
          rw [hemp] at hsel2
          cases hsel2
      | some sel' =>
        have hspec' := selMax_spec hsel2
        have hspec'bs : SelSpec H W bs sel' := selSpec_perm hpermbs hspec'
        have heq : sel' = sel := selSpec_unique htips hspec'bs hspec
        rw [heq]
    refine ⟨hfirst, ?_⟩
    have hmemb : b ∈ bs := collectBranches_mem hcol hk hb
    exact hspec.2 b hmemb

theorem claim_C4_witness :
    longestChainOver hashNonce workOne storeFork 1 (storeFork.length + 1)
        [7, 1, 10] = some ⟨gHdr, [bHdr]⟩ ∧
    (tailWork workOne ⟨gHdr, [aHdr]⟩ < tailWork workOne ⟨gHdr, [bHdr]⟩ ∨
      (tailWork workOne ⟨gHdr, [aHdr]⟩ = tailWork workOne ⟨gHdr, [bHdr]⟩ ∧
        hashNonce (NEL.last ⟨gHdr, [bHdr]⟩) ≤
          hashNonce (NEL.last ⟨gHdr, [aHdr]⟩))) :=
  claim_C4 hashNonce workOne storeFork 1 [7, 1, 10] ⟨gHdr, [bHdr]⟩ 10
    ⟨gHdr, [aHdr]⟩ (by decide) (by decide) (by decide) (by decide) (by decide)
